import Mathlib

/-
Verification of the XML stanza tree of biboumi (src/xmpp/xmpp_stanza.{hpp,cpp}).

Strings (std::string) are modelled as `List Char`.  The `std::map` of
attributes is modelled as an association list sorted strictly by key, which is
exactly the observable behaviour of `std::map` (unique keys, iteration in key
order).  Node identity and parent back-references are modelled with an arena
(`World`): a node pointer is an index into the arena, matching the C++ heap.
Recursive tree walks (serialization, deep copy, tree extraction) take explicit
fuel so that every definition is structural and computable by the kernel.
-/

namespace Biboumi

/-- Escape of a single character, the switch inside `xml_escape`
(src/unnamed/part_000 lines 18-38). -/
def escape_char (c : Char) : List Char :=
  if c = '&' then ['&', 'a', 'm', 'p', ';']
  else if c = '<' then ['&', 'l', 't', ';']
  else if c = '>' then ['&', 'g', 't', ';']
  else if c = '"' then ['&', 'q', 'u', 'o', 't', ';']
  else if c = '\x27' then ['&', 'a', 'p', 'o', 's', ';']
  else [c]

/-- The loop of `xml_escape` (src/unnamed/part_000 lines 12-41): each input
character contributes `escape_char c` to the result. -/
def xml_escape : List Char → List Char
  | [] => []
  | c :: rest => escape_char c ++ xml_escape rest

/-- Modelled from the spec: `utils::remove_invalid_xml_chars` is not under
src/.  Spec section 4.4 describes it as stripping the characters forbidden by
the XML 1.0 character grammar: control characters below U+0020 other than tab,
newline and carriage return, and the disallowed ranges (surrogates are already
excluded from `Char`, and U+FFFE/U+FFFF are excluded here). -/
def validXmlChar (c : Char) : Bool :=
  c = '\t' || c = '\n' || c = '\r' ||
  (0x20 ≤ c.toNat && c.toNat ≤ 0xD7FF) ||
  (0xE000 ≤ c.toNat && c.toNat ≤ 0xFFFD) ||
  (0x10000 ≤ c.toNat)

/-- Modelled from the spec: the strip step of the sanitization pipeline. -/
def remove_invalid_xml_chars (data : List Char) : List Char :=
  data.filter validXmlChar

/-- The `sanitize` function (src/unnamed/part_000 lines 43-49).  Our strings
are sequences of Unicode scalar values and therefore always valid UTF-8, so
the `is_valid_utf8` branch is always taken and `convert_to_utf8` (not under
src/) never runs: sanitize = escape after strip. -/
def sanitize (data : List Char) : List Char :=
  xml_escape (remove_invalid_xml_chars data)

/-- Strict lexicographic comparison of strings, the `operator<` used by
`std::map<std::string, std::string>` to order attribute keys. -/
def strLt : List Char → List Char → Bool
  | [], [] => false
  | [], _ :: _ => true
  | _ :: _, [] => false
  | a :: as, b :: bs => if a < b then true else if b < a then false else strLt as bs

/-- Upsert into the sorted association list, the effect of
`this->attributes[name] = value` on a `std::map`. -/
def map_insert (k v : List Char) : List (List Char × List Char) → List (List Char × List Char)
  | [] => [(k, v)]
  | (k', v') :: rest =>
    if strLt k k' = true then (k, v) :: (k', v') :: rest
    else if k = k' then (k, v) :: rest
    else (k', v') :: map_insert k v rest

/-- Lookup in the association list, the effect of `attributes.at(name)` /
`attributes.find(name)`. -/
def map_find : List (List Char × List Char) → List Char → Option (List Char)
  | [], _ => none
  | (k', v') :: rest, k => if k = k' then some v' else map_find rest k

/-- Erase from the association list; returns the number of erased entries
together with the remaining list, the effect of `attributes.erase(name)`. -/
def map_erase (k : List Char) : List (List Char × List Char) → Nat × List (List Char × List Char)
  | [] => (0, [])
  | (k', v') :: rest =>
    if k = k' then (1, rest)
    else
      let r := map_erase k rest
      (r.1, (k', v') :: r.2)

/-- Invariant of the `std::map` model: keys strictly increasing. -/
def sortedKeys (m : List (List Char × List Char)) : Prop :=
  List.Pairwise (fun a b => strLt a.1 b.1 = true) m

/-- The data of one `XmlNode` object (src/src/xmpp/xmpp_stanza.hpp lines
130-137): name, parent pointer, attribute map, children pointers, inner and
tail text.  Pointers are arena indices. -/
structure NodeData where
  name : List Char
  parent : Option Nat
  attributes : List (List Char × List Char)
  children : List Nat
  inner : List Char
  tail : List Char
deriving Repr, DecidableEq

/-- The arena holding every allocated `XmlNode`; a pointer is an index. -/
abbrev World := List NodeData

/-- Dereference a node pointer. -/
def nodeAt (w : World) (i : Nat) : Option NodeData := w[i]?

/-- Overwrite the node behind a pointer. -/
def setNode (w : World) (i : Nat) (d : NodeData) : World := w.set i d

/-- Allocate a fresh node (`std::make_unique<XmlNode>`), returning the new
world and the new pointer. -/
def alloc (w : World) (d : NodeData) : World × Nat := (w ++ [d], w.length)

/-- The namespace separator `'\1'` used by `XmlNode::XmlNode(name, parent)`. -/
def sepChar : Char := '\x01'

/-- The reserved attribute key `"xmlns"`. -/
def xmlnsKey : List Char := ['x', 'm', 'l', 'n', 's']

/-- Index of the last occurrence of a character, `std::string::rfind(char)`
(as used at src/unnamed/part_000 line 55). -/
def rfind : List Char → Char → Option Nat
  | [], _ => none
  | x :: xs, c =>
    match rfind xs c with
    | some n => some (n + 1)
    | none => if x = c then some 0 else none

/-- The single-string constructor `XmlNode::XmlNode(const std::string&,
XmlNode*)` (src/unnamed/part_000 lines 51-63): split the namespace out of the
name at the last `'\1'`. -/
def xmlNode_mk1 (nm : List Char) (parent : Option Nat) : NodeData :=
  match rfind nm sepChar with
  | none => ⟨nm, parent, [], [], [], []⟩
  | some n => ⟨nm.drop (n + 1), parent, map_insert xmlnsKey (nm.take n) [], [], [], []⟩

/-- The two-string constructor `XmlNode::XmlNode(const std::string& xmlns,
const std::string& name, XmlNode*)` (src/unnamed/part_000 lines 70-75). -/
def xmlNode_mk2 (xmlns nm : List Char) (parent : Option Nat) : NodeData :=
  ⟨nm, parent, map_insert xmlnsKey xmlns [], [], [], []⟩

/-- `XmlNode::set_attribute` (src/unnamed/part_000 lines 87-90), on the node
value. -/
def set_attribute (d : NodeData) (k v : List Char) : NodeData :=
  { d with attributes := map_insert k v d.attributes }

/-- `XmlNode::set_attribute` acting through a pointer into the arena. -/
def set_attribute_w (w : World) (i : Nat) (k v : List Char) : World :=
  match nodeAt w i with
  | none => w
  | some d => setNode w i (set_attribute d k v)

/-- `XmlNode::set_tail` (src/unnamed/part_000 lines 92-95). -/
def set_tail (d : NodeData) (s : List Char) : NodeData := { d with tail := s }

/-- `XmlNode::add_to_tail` (src/unnamed/part_000 lines 97-100). -/
def add_to_tail (d : NodeData) (s : List Char) : NodeData :=
  { d with tail := d.tail ++ s }

/-- `XmlNode::set_inner` (src/unnamed/part_000 lines 102-105). -/
def set_inner (d : NodeData) (s : List Char) : NodeData := { d with inner := s }

/-- `XmlNode::add_to_inner` (src/unnamed/part_000 lines 107-110). -/
def add_to_inner (d : NodeData) (s : List Char) : NodeData :=
  { d with inner := d.inner ++ s }

/-- `XmlNode::del_tag` (src/unnamed/part_000 lines 226-231): erase and report
whether anything was erased. -/
def del_tag (d : NodeData) (k : List Char) : Bool × NodeData :=
  let r := map_erase k d.attributes
  (decide (r.1 ≠ 0), { d with attributes := r.2 })

/-- `XmlNode::add_child(std::unique_ptr<XmlNode>)` (src/unnamed/part_000 lines
143-149): set the child's parent pointer, then append the child pointer to the
parent's child list.  `none` models dereferencing an invalid pointer. -/
def add_child_ptr (w : World) (p c : Nat) : Option World :=
  (nodeAt w c).bind fun cd =>
    let w1 := setNode w c { cd with parent := some p }
    (nodeAt w1 p).map fun pd => setNode w1 p { pd with children := pd.children ++ [c] }

/-- `XmlNode::add_child(XmlNode&&)` (src/unnamed/part_000 lines 151-155):
move the value into a fresh heap node, then attach that node.  Returns the new
world and the returned pointer. -/
def add_child_move (w : World) (p : Nat) (d : NodeData) : Option (World × Nat) :=
  let a := alloc w d
  (add_child_ptr a.1 p a.2).map fun w2 => (w2, a.2)

/-- The loop of the copy constructor (src/src/xmpp/xmpp_stanza.hpp lines
42-43): for each child pointer in the list, recursively copy that child into a
fresh node (copied nodes start with `parent := none` and no children, lines
34-41) and attach the copy to `r` via `add_child`.  Fuel bounds the recursion
depth. -/
def copy_list : Nat → World → Nat → List Nat → Option World
  | 0, _, _, _ => none
  | _ + 1, w, _, [] => some w
  | f + 1, w, r, c :: rest =>
    (nodeAt w c).bind fun d =>
      let a := alloc w { d with parent := none, children := [] }
      (copy_list f a.1 a.2 d.children).bind fun w2 =>
        (add_child_ptr w2 r a.2).bind fun w3 =>
          copy_list f w3 r rest

/-- The copy constructor `XmlNode::XmlNode(const XmlNode&)`
(src/src/xmpp/xmpp_stanza.hpp lines 34-44): copy name, attributes, inner and
tail, reset parent to null, start with no children, then deep-copy and attach
every child. -/
def copy_ctor : Nat → World → Nat → Option (World × Nat)
  | 0, _, _ => none
  | f + 1, w, src =>
    (nodeAt w src).bind fun d =>
      let a := alloc w { d with parent := none, children := [] }
      (copy_list f a.1 a.2 d.children).map fun w2 => (w2, a.2)

/-- `XmlNode::add_child(const XmlNode&)` (src/unnamed/part_000 lines 157-161):
copy-construct a fresh node from `src`, then attach it. -/
def add_child_copy (f : Nat) (w : World) (p src : Nat) : Option (World × Nat) :=
  (copy_ctor f w src).bind fun a =>
    (add_child_ptr a.1 p a.2).map fun w2 => (w2, a.2)

/-- `XmlSubNode::~XmlSubNode` (src/src/xmpp/xmpp_stanza.hpp lines 160-163):
on scope exit the builder is moved into `parent_to_add.add_child`.  `d` is the
state of the built node at scope exit. -/
def xmlSubNode_dtor (w : World) (p : Nat) (d : NodeData) : Option (World × Nat) :=
  add_child_move w p d

/-- Construction of a scoped builder `XmlSubNode(parent, name)`
(src/src/xmpp/xmpp_stanza.hpp lines 151-154): a fresh detached `XmlNode`. -/
def xmlSubNode_mk (nm : List Char) : NodeData := xmlNode_mk1 nm none

/-- Rendering of one attribute: a space, the key, an equals sign, and the
sanitized value between single quotes (src/unnamed/part_000 line 193). -/
def render_attr (kv : List Char × List Char) : List Char :=
  ' ' :: (kv.1 ++ ('=' :: '\x27' :: (sanitize kv.2 ++ ['\x27'])))

/-- The attribute loop of `to_string` (src/unnamed/part_000 lines 192-193):
attributes rendered in the iteration order of the map. -/
def attrs_string : List (List Char × List Char) → List Char
  | [] => []
  | kv :: rest => render_attr kv ++ attrs_string rest

/-- The body of `XmlNode::to_string` (src/unnamed/part_000 lines 188-205)
given the already-serialized concatenation of the children. -/
def to_string_node (d : NodeData) (childrenStr : List Char) : List Char :=
  '<' :: (d.name ++ attrs_string d.attributes ++
    (if d.children.isEmpty && d.inner.isEmpty then ['/', '>']
     else '>' :: (sanitize d.inner ++ childrenStr ++ ('<' :: '/' :: (d.name ++ ['>'])))) ++
    sanitize d.tail)

/-- Serialization of a list of node pointers: concatenation of
`child->to_string()` in child order (src/unnamed/part_000 lines 199-200).
Fuel bounds the recursion depth. -/
def to_string_list : Nat → World → List Nat → Option (List Char)
  | 0, _, _ => none
  | _ + 1, _, [] => some []
  | f + 1, w, i :: rest =>
    (nodeAt w i).bind fun d =>
      (to_string_list f w d.children).bind fun cs =>
        (to_string_list f w rest).map fun rs => to_string_node d cs ++ rs

/-- `XmlNode::to_string` through a pointer. -/
def to_string : Nat → World → Nat → Option (List Char)
  | 0, _, _ => none
  | f + 1, w, i =>
    (nodeAt w i).bind fun d => (to_string_list f w d.children).map (to_string_node d)

/-- The pure tree value denoted by a subtree of the arena: name, attributes,
children trees, inner and tail (the parent pointer is not part of the value). -/
inductive XmlTree : Type where
  | node : List Char → List (List Char × List Char) → List XmlTree →
      List Char → List Char → XmlTree

/-- Extraction of the pure trees of a list of node pointers, with fuel. -/
def treeOfList : Nat → World → List Nat → Option (List XmlTree)
  | 0, _, _ => none
  | _ + 1, _, [] => some []
  | f + 1, w, i :: rest =>
    (nodeAt w i).bind fun d =>
      (treeOfList f w d.children).bind fun ts =>
        (treeOfList f w rest).map fun rs =>
          XmlTree.node d.name d.attributes ts d.inner d.tail :: rs

/-- Extraction of the pure tree below one node pointer. -/
def treeOf : Nat → World → Nat → Option XmlTree
  | 0, _, _ => none
  | f + 1, w, i =>
    (nodeAt w i).bind fun d =>
      (treeOfList f w d.children).map
        (fun ts => XmlTree.node d.name d.attributes ts d.inner d.tail)

/-- A world extension: every node of `w` is unchanged in `w'`. -/
def extW (w w' : World) : Prop :=
  ∀ i, i < w.length → nodeAt w' i = nodeAt w i

/-- The parent field reset to `none`; two nodes with equal `stripP` carry the
same content (name, attributes, children, inner, tail). -/
def stripP (d : NodeData) : NodeData := { d with parent := none }

/-- Agreement of two worlds up to parent pointers on an index interval. -/
def contentAgree (w w' : World) (lo hi : Nat) : Prop :=
  ∀ i, lo ≤ i → i < hi →
    ∃ a b, nodeAt w i = some a ∧ nodeAt w' i = some b ∧ stripP a = stripP b

instance (m : List (List Char × List Char)) : Decidable (sortedKeys m) := by
  unfold sortedKeys; infer_instance

/-- The five characters replaced by `xml_escape`. -/
def reservedChars : List Char := ['&', '<', '>', '"', '\x27']

/-- One node named `a` with tail text `x`, no children, no attributes and no
inner text. -/
def exWorldTail : World := [⟨['a'], none, [], [], [], ['x']⟩]

/-- One node named `a` carrying an attribute whose key is the four characters
`</a>` (attribute keys are not sanitized by the serializer). -/
def exWorldKey : World := [⟨['a'], none, [(['<', '/', 'a', '>'], [])], [], [], []⟩]

/-- A two-node world: node 0 named `a` (one attribute, inner and tail text)
owning node 1 named `b`. -/
def exWorldTree : World :=
  [⟨['a'], none, [(['k'], ['v'])], [1], ['i'], ['t']⟩,
   ⟨['b'], some 0, [], [], [], []⟩]

/-- One detached node named `a` with a single attribute `k='v'`, no children,
no inner text and no tail. -/
def exWorldLeaf : World := [⟨['a'], none, [(['k'], ['v'])], [], [], []⟩]

/-- The example name with an embedded namespace, `"urn:example\x01item"`. -/
def exName : List Char :=
  ['u', 'r', 'n', ':', 'e', 'x', 'a', 'm', 'p', 'l', 'e', '\x01', 'i', 't', 'e', 'm']

/-! Basic facts about the arena. -/

theorem nodeAt_lt_length : ∀ {w : World} {i : Nat} {d : NodeData},
    nodeAt w i = some d → i < w.length := by
  intro w
  induction w with
  | nil => intro i d h; simp [nodeAt] at h
  | cons a as ih =>
    intro i d h
    cases i with
    | zero => simp
    | succ n =>
      simp only [nodeAt, List.getElem?_cons_succ] at h
      have := ih h
      simp; omega

theorem nodeAt_of_lt : ∀ {w : World} {i : Nat}, i < w.length → ∃ d, nodeAt w i = some d := by
  intro w
  induction w with
  | nil => intro i h; simp at h
  | cons a as ih =>
    intro i h
    cases i with
    | zero => exact ⟨a, by simp [nodeAt]⟩
    | succ n =>
      simp only [List.length_cons] at h
      obtain ⟨d, hd⟩ := ih (i := n) (by omega)
      exact ⟨d, by simpa [nodeAt] using hd⟩

theorem length_setNode (w : World) (i : Nat) (d : NodeData) :
    (setNode w i d).length = w.length := by
  simp [setNode]

theorem nodeAt_set_self : ∀ {w : World} {i : Nat} (d : NodeData),
    i < w.length → nodeAt (setNode w i d) i = some d := by
  intro w
  induction w with
  | nil => intro i d h; simp at h
  | cons a as ih =>
    intro i d h
    cases i with
    | zero => simp [nodeAt, setNode]
    | succ n =>
      simp only [List.length_cons] at h
      simpa [nodeAt, setNode] using ih d (by omega)

theorem nodeAt_set_ne : ∀ {w : World} {i j : Nat} (d : NodeData),
    i ≠ j → nodeAt (setNode w i d) j = nodeAt w j := by
  intro w
  induction w with
  | nil => intro i j d _; simp [setNode]
  | cons a as ih =>
    intro i j d hij
    cases i with
    | zero =>
      cases j with
      | zero => exact absurd rfl hij
      | succ m => simp [nodeAt, setNode]
    | succ n =>
      cases j with
      | zero => simp [nodeAt, setNode]
      | succ m =>
        simpa [nodeAt, setNode] using ih d (by omega)

theorem nodeAt_append_lt {w : World} (l : World) {i : Nat} (h : i < w.length) :
    nodeAt (w ++ l) i = nodeAt w i := by
  simp [nodeAt, List.getElem?_append, h]

theorem nodeAt_append_self (w : World) (d : NodeData) :
    nodeAt (w ++ [d]) w.length = some d := by
  induction w with
  | nil => rfl
  | cons a as ih =>
    simpa only [nodeAt, List.cons_append, List.length_cons, List.getElem?_cons_succ] using ih

theorem extW_length {w w' : World} (h : extW w w') : w.length ≤ w'.length := by
  cases hw : w.length with
  | zero => omega
  | succ n =>
    obtain ⟨d, hd⟩ := nodeAt_of_lt (w := w) (i := n) (by omega)
    have := nodeAt_lt_length (w := w') (i := n) (d := d) (by rw [h n (by omega)]; exact hd)
    omega

theorem extW_refl (w : World) : extW w w := fun _ _ => rfl

theorem extW_alloc (w : World) (d : NodeData) : extW w (w ++ [d]) :=
  fun _ hi => nodeAt_append_lt [d] hi

theorem extW_trans {w1 w2 w3 : World} (h12 : extW w1 w2) (h23 : extW w2 w3) :
    extW w1 w3 := by
  intro i hi
  rw [h23 i (Nat.lt_of_lt_of_le hi (extW_length h12)), h12 i hi]

/-! Facts about the string order used by the attribute map. -/

theorem strLt_irrefl : ∀ s : List Char, strLt s s = false := by
  intro s
  induction s with
  | nil => rfl
  | cons a as ih => simp [strLt, ih]

theorem strLt_trans : ∀ {a b c : List Char},
    strLt a b = true → strLt b c = true → strLt a c = true := by
  intro a
  induction a with
  | nil =>
    intro b c hab hbc
    cases b with
    | nil => simp [strLt] at hab
    | cons y ys =>
      cases c with
      | nil => simp [strLt] at hbc
      | cons z zs => rfl
  | cons x xs ih =>
    intro b c hab hbc
    cases b with
    | nil => simp [strLt] at hab
    | cons y ys =>
      cases c with
      | nil => simp [strLt] at hbc
      | cons z zs =>
        simp only [strLt] at hab hbc ⊢
        by_cases hxy : x < y
        · by_cases hyz : y < z
          · rw [if_pos (lt_trans hxy hyz)]
          · simp only [if_neg hyz] at hbc
            by_cases hzy : z < y
            · simp [hzy] at hbc
            · have : y = z := le_antisymm (not_lt.mp hzy) (not_lt.mp hyz)
              subst this
              rw [if_pos hxy]
        · simp only [if_neg hxy] at hab
          by_cases hyx : y < x
          · simp [hyx] at hab
          · have hxyeq : x = y := le_antisymm (not_lt.mp hyx) (not_lt.mp hxy)
            subst hxyeq
            rw [if_neg (lt_irrefl x)] at hab
            by_cases hyz : x < z
            · rw [if_pos hyz]
            · simp only [if_neg hyz] at hbc ⊢
              by_cases hzy : z < x
              · simp [hzy] at hbc
              · simp only [if_neg hzy] at hbc ⊢
                exact ih hab hbc

theorem strLt_asymm {a b : List Char} (h1 : strLt a b = true) (h2 : strLt b a = true) :
    False := by
  have := strLt_trans h1 h2
  rw [strLt_irrefl] at this
  cases this

theorem strLt_conn : ∀ {a b : List Char},
    strLt a b = false → strLt b a = false → a = b := by
  intro a
  induction a with
  | nil =>
    intro b hab _
    cases b with
    | nil => rfl
    | cons y ys => simp [strLt] at hab
  | cons x xs ih =>
    intro b hab hba
    cases b with
    | nil => simp [strLt] at hba
    | cons y ys =>
      simp only [strLt] at hab hba
      by_cases hxy : x < y
      · simp [hxy] at hab
      · by_cases hyx : y < x
        · simp [hyx] at hba
        · have hxyeq : x = y := le_antisymm (not_lt.mp hyx) (not_lt.mp hxy)
          subst hxyeq
          rw [if_neg hxy, if_neg hxy] at hab
          rw [if_neg hxy, if_neg hxy] at hba
          rw [ih hab hba]

theorem strLt_of_ne_of_not_lt {a b : List Char} (hne : a ≠ b)
    (h : strLt a b = false) : strLt b a = true := by
  by_cases hba : strLt b a = true
  · exact hba
  · have hba' : strLt b a = false := by simpa using hba
    exact absurd (strLt_conn hba' h).symm hne

/-! Facts about the attribute map. -/

theorem map_find_mem : ∀ {m : List (List Char × List Char)} {k v : List Char},
    map_find m k = some v → (k, v) ∈ m := by
  intro m
  induction m with
  | nil => intro k v h; simp [map_find] at h
  | cons kv rest ih =>
    intro k v h
    obtain ⟨k', v'⟩ := kv
    simp only [map_find] at h
    by_cases hk : k = k'
    · rw [if_pos hk] at h
      injection h with h2
      subst hk; subst h2
      exact List.mem_cons_self _ _
    · rw [if_neg hk] at h
      exact List.mem_cons_of_mem _ (ih h)

theorem sorted_cons_find_none {k v : List Char} {r : List (List Char × List Char)}
    (h : sortedKeys ((k, v) :: r)) : map_find r k = none := by
  cases hf : map_find r k with
  | none => rfl
  | some v' =>
    have hm := map_find_mem hf
    have h1 := (List.pairwise_cons.mp h).1 (k, v') hm
    rw [strLt_irrefl] at h1
    simp at h1

theorem find_map_insert (k v k' : List Char) :
    ∀ m, map_find (map_insert k v m) k' = if k' = k then some v else map_find m k' := by
  intro m
  induction m with
  | nil => simp [map_insert, map_find]
  | cons kv rest ih =>
    obtain ⟨k2, v2⟩ := kv
    simp only [map_insert]
    by_cases h1 : strLt k k2 = true
    · rw [if_pos h1]
      simp [map_find]
    · rw [if_neg h1]
      by_cases h2 : k = k2
      · rw [if_pos h2]
        subst h2
        by_cases hk' : k' = k
        · simp [map_find, hk']
        · simp [map_find, hk']
      · rw [if_neg h2]
        by_cases hk' : k' = k2
        · have hk'k : ¬ k' = k := fun hh => h2 (hh.symm.trans hk')
          have hk2k : ¬ k2 = k := fun hh => h2 hh.symm
          simp [map_find, hk', hk'k, hk2k]
        · simp [map_find, hk', ih]

theorem mem_map_insert : ∀ {m : List (List Char × List Char)} {k v : List Char}
    {x : List Char × List Char}, x ∈ map_insert k v m → x = (k, v) ∨ x ∈ m := by
  intro m
  induction m with
  | nil => intro k v x h; simpa [map_insert] using h
  | cons kv rest ih =>
    intro k v x h
    obtain ⟨k2, v2⟩ := kv
    simp only [map_insert] at h
    by_cases h1 : strLt k k2 = true
    · rw [if_pos h1] at h
      rcases List.mem_cons.mp h with h | h
      · exact Or.inl h
      · exact Or.inr h
    · rw [if_neg h1] at h
      by_cases h2 : k = k2
      · rw [if_pos h2] at h
        rcases List.mem_cons.mp h with h | h
        · exact Or.inl h
        · exact Or.inr (List.mem_cons_of_mem _ h)
      · rw [if_neg h2] at h
        rcases List.mem_cons.mp h with h | h
        · exact Or.inr (by simp [h])
        · rcases ih h with h | h
          · exact Or.inl h
          · exact Or.inr (List.mem_cons_of_mem _ h)

theorem sorted_map_insert {k v : List Char} :
    ∀ {m : List (List Char × List Char)}, sortedKeys m → sortedKeys (map_insert k v m) := by
  intro m
  induction m with
  | nil => intro _; simp [map_insert, sortedKeys]
  | cons kv rest ih =>
    intro hs
    obtain ⟨k2, v2⟩ := kv
    obtain ⟨hhead, hrest⟩ := List.pairwise_cons.mp hs
    simp only [map_insert]
    by_cases h1 : strLt k k2 = true
    · rw [if_pos h1]
      refine List.pairwise_cons.mpr ⟨?_, hs⟩
      intro x hx
      rcases List.mem_cons.mp hx with h | h
      · subst h; exact h1
      · exact strLt_trans h1 (hhead x h)
    · rw [if_neg h1]
      by_cases h2 : k = k2
      · rw [if_pos h2]
        subst h2
        exact List.pairwise_cons.mpr ⟨hhead, hrest⟩
      · rw [if_neg h2]
        refine List.pairwise_cons.mpr ⟨?_, ih hrest⟩
        intro x hx
        rcases mem_map_insert hx with h | h
        · subst h
          show strLt k2 k = true
          exact strLt_of_ne_of_not_lt h2 (by simpa using h1)
        · exact hhead x h

theorem map_ext : ∀ {m1 m2 : List (List Char × List Char)},
    sortedKeys m1 → sortedKeys m2 → (∀ k, map_find m1 k = map_find m2 k) → m1 = m2 := by
  intro m1
  induction m1 with
  | nil =>
    intro m2 _ _ h
    cases m2 with
    | nil => rfl
    | cons kv r =>
      obtain ⟨k2, v2⟩ := kv
      have := h k2
      simp [map_find] at this
  | cons kv r1 ih =>
    intro m2 hs1 hs2 h
    obtain ⟨k1, v1⟩ := kv
    cases m2 with
    | nil =>
      have := h k1
      simp [map_find] at this
    | cons kv2 r2 =>
      obtain ⟨k2, v2⟩ := kv2
      have hf1 : map_find ((k1, v1) :: r1) k1 = some v1 := by simp [map_find]
      have hf2 : map_find ((k2, v2) :: r2) k2 = some v2 := by simp [map_find]
      have hk : k1 = k2 := by
        by_contra hne
        have ha : map_find r2 k1 = some v1 := by
          have := (h k1).symm.trans hf1
          rwa [map_find, if_neg (fun hh => hne hh)] at this
        have hb : map_find r1 k2 = some v2 := by
          have := (h k2).trans hf2
          rwa [map_find, if_neg (fun hh => hne hh.symm)] at this
        have hlt1 := (List.pairwise_cons.mp hs2).1 _ (map_find_mem ha)
        have hlt2 := (List.pairwise_cons.mp hs1).1 _ (map_find_mem hb)
        exact strLt_asymm hlt1 hlt2
      subst hk
      have hv : v1 = v2 := by
        have := (h k1).symm.trans hf1
        rw [map_find, if_pos rfl] at this
        injection this with hh
        exact hh.symm
      subst hv
      have htails : ∀ k, map_find r1 k = map_find r2 k := by
        intro k
        by_cases hk : k = k1
        · subst hk
          rw [sorted_cons_find_none hs1, sorted_cons_find_none hs2]
        · have := h k
          rwa [map_find, map_find, if_neg hk, if_neg hk] at this
      rw [ih (List.pairwise_cons.mp hs1).2 (List.pairwise_cons.mp hs2).2 htails]

theorem map_erase_not_found : ∀ {m : List (List Char × List Char)} {k : List Char},
    map_find m k = none → map_erase k m = (0, m) := by
  intro m
  induction m with
  | nil => intro k _; rfl
  | cons kv rest ih =>
    intro k h
    obtain ⟨k2, v2⟩ := kv
    simp only [map_find] at h
    by_cases hk : k = k2
    · rw [if_pos hk] at h; cases h
    · rw [if_neg hk] at h
      simp [map_erase, hk, ih h]

theorem map_erase_count_zero : ∀ {m : List (List Char × List Char)} {k : List Char},
    (map_erase k m).1 = 0 ↔ map_find m k = none := by
  intro m
  induction m with
  | nil => intro k; simp [map_erase, map_find]
  | cons kv rest ih =>
    intro k
    obtain ⟨k2, v2⟩ := kv
    by_cases hk : k = k2
    · simp [map_erase, map_find, hk]
    · simp [map_erase, map_find, hk, ih]

theorem map_erase_find_self : ∀ {m : List (List Char × List Char)} {k : List Char},
    sortedKeys m → map_find (map_erase k m).2 k = none := by
  intro m
  induction m with
  | nil => intro k _; rfl
  | cons kv rest ih =>
    intro k hs
    obtain ⟨k2, v2⟩ := kv
    by_cases hk : k = k2
    · subst hk
      simp only [map_erase, if_pos rfl]
      exact sorted_cons_find_none hs
    · simp only [map_erase, if_neg hk]
      simp only [map_find, if_neg hk]
      exact ih (List.pairwise_cons.mp hs).2

theorem map_erase_find_ne : ∀ {m : List (List Char × List Char)} {k k' : List Char},
    k' ≠ k → map_find (map_erase k m).2 k' = map_find m k' := by
  intro m
  induction m with
  | nil => intro k k' _; rfl
  | cons kv rest ih =>
    intro k k' hne
    obtain ⟨k2, v2⟩ := kv
    by_cases hk : k = k2
    · subst hk
      have herase : map_erase k ((k, v2) :: rest) = (1, rest) := by simp [map_erase]
      rw [herase, map_find, if_neg hne]
    · simp only [map_erase, if_neg hk]
      by_cases hk' : k' = k2
      · simp [map_find, hk']
      · simp only [map_find, if_neg hk']
        exact ih hne

/-! Facts about escaping. -/

theorem escape_char_eq_self {c : Char} (h : c ∉ reservedChars) : escape_char c = [c] := by
  simp only [reservedChars, List.mem_cons, List.mem_singleton] at h
  push_neg at h
  obtain ⟨h1, h2, h3, h4, h5⟩ := h
  simp [escape_char, h1, h2, h3, h4, h5]

theorem xml_escape_id : ∀ {s : List Char},
    (∀ c ∈ s, c ∉ reservedChars) → xml_escape s = s := by
  intro s
  induction s with
  | nil => intro _; rfl
  | cons c rest ih =>
    intro h
    rw [xml_escape, escape_char_eq_self (h c (List.mem_cons_self _ _)),
      ih (fun c' hc' => h c' (List.mem_cons_of_mem _ hc'))]
    rfl

theorem lt_not_mem_escape_char (c : Char) : '<' ∉ escape_char c := by
  by_cases h1 : c = '&'
  · subst h1; decide
  by_cases h2 : c = '<'
  · subst h2; decide
  by_cases h3 : c = '>'
  · subst h3; decide
  by_cases h4 : c = '"'
  · subst h4; decide
  by_cases h5 : c = '\x27'
  · subst h5; decide
  have h6 : ¬ ('<' = c) := fun hh => h2 hh.symm
  simp [escape_char, h1, h2, h3, h4, h5, h6]

theorem lt_not_mem_xml_escape : ∀ s : List Char, '<' ∉ xml_escape s := by
  intro s
  induction s with
  | nil => simp [xml_escape]
  | cons c rest ih =>
    rw [xml_escape]
    intro h
    rcases List.mem_append.mp h with h | h
    · exact lt_not_mem_escape_char c h
    · exact ih h

theorem lt_not_mem_sanitize (s : List Char) : '<' ∉ sanitize s :=
  lt_not_mem_xml_escape _

/-! Facts about attribute rendering and the serializer. -/

theorem lt_not_mem_render_attr {kv : List Char × List Char} (h : '<' ∉ kv.1) :
    '<' ∉ render_attr kv := by
  intro hm
  simp only [render_attr, List.mem_cons, List.mem_append] at hm
  rcases hm with hm | hm
  · cases hm
  rcases hm with hm | hm
  · exact h hm
  rcases hm with hm | hm
  · cases hm
  rcases hm with hm | hm
  · cases hm
  rcases hm with hm | hm
  · exact lt_not_mem_sanitize _ hm
  · simp at hm

theorem lt_not_mem_attrs_string :
    ∀ {attrs : List (List Char × List Char)},
      (∀ kv ∈ attrs, '<' ∉ kv.1) → '<' ∉ attrs_string attrs := by
  intro attrs
  induction attrs with
  | nil => intro _; simp [attrs_string]
  | cons kv rest ih =>
    intro h hm
    rcases List.mem_append.mp hm with hm | hm
    · exact lt_not_mem_render_attr (h kv (List.mem_cons_self _ _)) hm
    · exact ih (fun x hx => h x (List.mem_cons_of_mem _ hx)) hm

theorem attrs_string_mem_split :
    ∀ {attrs : List (List Char × List Char)} {kv : List Char × List Char}, kv ∈ attrs →
      ∃ s1 s2, attrs_string attrs = s1 ++ (render_attr kv ++ s2) := by
  intro attrs
  induction attrs with
  | nil => intro kv h; cases h
  | cons hd rest ih =>
    intro kv h
    rcases List.mem_cons.mp h with h | h
    · subst h
      exact ⟨[], attrs_string rest, rfl⟩
    · obtain ⟨s1, s2, hs⟩ := ih h
      exact ⟨render_attr hd ++ s1, s2, by rw [attrs_string, hs, List.append_assoc]⟩

theorem attrs_string_order :
    ∀ {attrs : List (List Char × List Char)} {k1 v1 k2 v2 : List Char},
      sortedKeys attrs → (k1, v1) ∈ attrs → (k2, v2) ∈ attrs → strLt k1 k2 = true →
      ∃ s1 s2 s3, attrs_string attrs =
        s1 ++ (render_attr (k1, v1) ++ (s2 ++ (render_attr (k2, v2) ++ s3))) := by
  intro attrs
  induction attrs with
  | nil => intro k1 v1 k2 v2 _ h1 _ _; cases h1
  | cons hd rest ih =>
    intro k1 v1 k2 v2 hs h1 h2 hlt
    obtain ⟨hhead, hrest⟩ := List.pairwise_cons.mp hs
    rcases List.mem_cons.mp h1 with hm1 | hm1
    · subst hm1
      rcases List.mem_cons.mp h2 with hm2 | hm2
      · have hk12 : k1 = k2 := congrArg Prod.fst hm2.symm
        subst hk12
        rw [strLt_irrefl] at hlt
        cases hlt
      · obtain ⟨t1, t2, ht⟩ := attrs_string_mem_split hm2
        refine ⟨[], t1, t2, ?_⟩
        rw [attrs_string, ht]
        simp
    · rcases List.mem_cons.mp h2 with hm2 | hm2
      · subst hm2
        have hlt2 := hhead _ hm1
        exact absurd hlt (by intro hc; exact strLt_asymm hc hlt2)
      · obtain ⟨s1, s2, s3, hs123⟩ := ih hrest hm1 hm2 hlt
        refine ⟨render_attr hd ++ s1, s2, s3, ?_⟩
        rw [attrs_string, hs123, List.append_assoc]

theorem to_string_some_elim {f : Nat} {w : World} {i : Nat} {s : List Char}
    (h : to_string f w i = some s) :
    ∃ f2 d cs, f = f2 + 1 ∧ nodeAt w i = some d ∧
      to_string_list f2 w d.children = some cs ∧ s = to_string_node d cs := by
  cases f with
  | zero => cases h
  | succ f2 =>
    rw [to_string] at h
    cases hd : nodeAt w i with
    | none => rw [hd, Option.none_bind] at h; cases h
    | some d =>
      rw [hd, Option.some_bind] at h
      cases hcs : to_string_list f2 w d.children with
      | none => rw [hcs, Option.map_none'] at h; cases h
      | some cs =>
        rw [hcs, Option.map_some'] at h
        injection h with h
        exact ⟨f2, d, cs, rfl, rfl, hcs, h.symm⟩

theorem to_string_leaf {f : Nat} {w : World} {i : Nat} {d : NodeData} {s : List Char}
    (hd : nodeAt w i = some d) (hc : d.children = []) (hi : d.inner = [])
    (h : to_string f w i = some s) :
    s = '<' :: (d.name ++ attrs_string d.attributes ++ ['/', '>'] ++ sanitize d.tail) := by
  obtain ⟨f2, d2, cs, _, hd2, _, hsn⟩ := to_string_some_elim h
  rw [hd] at hd2
  injection hd2 with hd2
  subst hd2
  rw [hsn, to_string_node, if_pos]
  simp [hc, hi]

theorem no_close_of_no_lt {body : List Char} (hmem : '<' ∉ body)
    (hhead : body.head? ≠ some '/') :
    ∀ X : List Char, ¬ (('<' :: '/' :: X) <:+: ('<' :: body)) := by
  intro X hinf
  obtain ⟨s, t, hst⟩ := hinf
  cases s with
  | nil =>
    simp only [List.nil_append, List.cons_append] at hst
    injection hst with hc h1
    rw [← h1] at hhead
    simp at hhead
  | cons c s2 =>
    simp only [List.cons_append] at hst
    injection hst with hc hrest
    apply hmem
    rw [← hrest]
    simp

/-! Transfer of tree extraction along world extension. -/

theorem treeOfList_extW : ∀ {f : Nat} {w w2 : World} {cs : List Nat} {ts : List XmlTree},
    extW w w2 → treeOfList f w cs = some ts → treeOfList f w2 cs = some ts := by
  intro f
  induction f with
  | zero => intro w w2 cs ts _ h; cases h
  | succ f ih =>
    intro w w2 cs ts hext h
    cases cs with
    | nil => exact h
    | cons i rest =>
      rw [treeOfList] at h ⊢
      cases hd : nodeAt w i with
      | none => rw [hd, Option.none_bind] at h; cases h
      | some d =>
        rw [hd, Option.some_bind] at h
        have hd2 : nodeAt w2 i = some d := by
          rw [hext i (nodeAt_lt_length hd)]; exact hd
        rw [hd2, Option.some_bind]
        cases hch : treeOfList f w d.children with
        | none => rw [hch, Option.none_bind] at h; cases h
        | some ts1 =>
          rw [hch, Option.some_bind] at h
          rw [ih hext hch, Option.some_bind]
          cases hrest : treeOfList f w rest with
          | none => rw [hrest, Option.map_none'] at h; cases h
          | some ts2 =>
            rw [hrest, Option.map_some'] at h
            rw [ih hext hrest, Option.map_some']
            exact h

/-! The deep-copy lemma: copying a list of subtrees into a fresh parent
succeeds whenever tree extraction succeeds, touches no pre-existing node other
than the parent, appends the copies to the parent in order, and the copies
denote the same pure trees in any world that agrees on the fresh region. -/

theorem stripP_fields {a b : NodeData} (h : stripP a = stripP b) :
    a.name = b.name ∧ a.attributes = b.attributes ∧ a.children = b.children ∧
    a.inner = b.inner ∧ a.tail = b.tail := by
  have h1 := congrArg NodeData.name h
  have h2 := congrArg NodeData.attributes h
  have h3 := congrArg NodeData.children h
  have h4 := congrArg NodeData.inner h
  have h5 := congrArg NodeData.tail h
  exact ⟨h1, h2, h3, h4, h5⟩

theorem contentAgree_self {w : World} {lo hi : Nat} (h : hi ≤ w.length) :
    contentAgree w w lo hi := by
  intro i _ hi2
  obtain ⟨a, ha⟩ := nodeAt_of_lt (w := w) (i := i) (by omega)
  exact ⟨a, a, ha, ha, rfl⟩

theorem copy_list_ok :
    ∀ (f : Nat) (cs : List Nat) (w wc : World) (r : Nat) (rd : NodeData)
      (ts : List XmlTree),
    treeOfList f w cs = some ts → extW w wc → w.length ≤ r → nodeAt wc r = some rd →
    ∃ wc2 kids,
      copy_list f wc r cs = some wc2 ∧
      wc.length ≤ wc2.length ∧
      (∀ i, i < wc.length → i ≠ r → nodeAt wc2 i = nodeAt wc i) ∧
      nodeAt wc2 r = some { rd with children := rd.children ++ kids } ∧
      (∀ k, k ∈ kids → wc.length ≤ k ∧ k < wc2.length) ∧
      (∀ wf, contentAgree wc2 wf wc.length wc2.length → treeOfList f wf kids = some ts) := by
  intro f
  induction f with
  | zero => intro cs w wc r rd ts h; cases h
  | succ f ih =>
    intro cs w wc r rd ts h hext hrge hrd
    have hrlt : r < wc.length := nodeAt_lt_length hrd
    cases cs with
    | nil =>
      injection h with h
      subst h
      refine ⟨wc, [], rfl, le_refl _, fun i _ _ => rfl, ?_, by simp, ?_⟩
      · rw [List.append_nil]
        exact hrd
      · intro wf _
        rfl
    | cons c rest =>
      rw [treeOfList] at h
      cases hd : nodeAt w c with
      | none => rw [hd, Option.none_bind] at h; cases h
      | some d =>
        rw [hd, Option.some_bind] at h
        cases hch : treeOfList f w d.children with
        | none => rw [hch, Option.none_bind] at h; cases h
        | some ts1 =>
          rw [hch, Option.some_bind] at h
          cases hrest : treeOfList f w rest with
          | none => rw [hrest, Option.map_none'] at h; cases h
          | some ts2 =>
            rw [hrest, Option.map_some'] at h
            injection h with h
            have hclt : c < w.length := nodeAt_lt_length hd
            have hwlen : w.length ≤ wc.length := extW_length hext
            have hdc : nodeAt wc c = some d := by
              rw [hext c hclt]; exact hd
            -- allocate the copy of c
            have hext1 : extW w (wc ++ [⟨d.name, none, d.attributes, [], d.inner, d.tail⟩]) :=
              extW_trans hext (extW_alloc wc _)
            have hnrc : nodeAt (wc ++ [⟨d.name, none, d.attributes, [], d.inner, d.tail⟩])
                wc.length = some ⟨d.name, none, d.attributes, [], d.inner, d.tail⟩ :=
              nodeAt_append_self wc _
            obtain ⟨w2, kids1, hcl1, hlen1, hframe1, hnode1, hmem1, hport1⟩ :=
              ih d.children w (wc ++ [⟨d.name, none, d.attributes, [], d.inner, d.tail⟩])
                wc.length ⟨d.name, none, d.attributes, [], d.inner, d.tail⟩ ts1 hch hext1
                (by omega) hnrc
            have hlen1w : wc.length + 1 ≤ w2.length := by
              simpa using hlen1
            -- attach the copy of c to r
            have hmid : nodeAt (setNode w2 wc.length
                ⟨d.name, some r, d.attributes, [] ++ kids1, d.inner, d.tail⟩) r = some rd := by
              rw [nodeAt_set_ne _ (by omega)]
              rw [hframe1 r (by simp; omega) (by omega)]
              rw [nodeAt_append_lt _ hrlt]
              exact hrd
            have hadd : add_child_ptr w2 r wc.length =
                some (setNode (setNode w2 wc.length
                  ⟨d.name, some r, d.attributes, [] ++ kids1, d.inner, d.tail⟩) r
                  { rd with children := rd.children ++ [wc.length] }) := by
              rw [add_child_ptr, hnode1, Option.some_bind]
              show (nodeAt (setNode w2 wc.length _) r).map _ = _
              rw [hmid, Option.map_some']
            -- state of the world after attaching
            have hlen3 : (setNode (setNode w2 wc.length
                ⟨d.name, some r, d.attributes, [] ++ kids1, d.inner, d.tail⟩) r
                { rd with children := rd.children ++ [wc.length] }).length = w2.length := by
              rw [length_setNode, length_setNode]
            have hext3 : extW w (setNode (setNode w2 wc.length
                ⟨d.name, some r, d.attributes, [] ++ kids1, d.inner, d.tail⟩) r
                { rd with children := rd.children ++ [wc.length] }) := by
              intro i hi
              rw [nodeAt_set_ne _ (by omega), nodeAt_set_ne _ (by omega)]
              rw [hframe1 i (by simp; omega) (by omega)]
              rw [nodeAt_append_lt _ (by omega)]
              exact hext i hi
            have hr3 : nodeAt (setNode (setNode w2 wc.length
                ⟨d.name, some r, d.attributes, [] ++ kids1, d.inner, d.tail⟩) r
                { rd with children := rd.children ++ [wc.length] }) r =
                some { rd with children := rd.children ++ [wc.length] } := by
              apply nodeAt_set_self
              rw [length_setNode]
              omega
            obtain ⟨w4, kids2, hcl2, hlen2, hframe2, hnode2, hmem2, hport2⟩ :=
              ih rest w _ r { rd with children := rd.children ++ [wc.length] } ts2 hrest
                hext3 hrge hr3
            rw [hlen3] at hlen2
            refine ⟨w4, wc.length :: kids2, ?_, by omega, ?_, ?_, ?_, ?_⟩
            -- the computation goes through
            · rw [copy_list, hdc]
              simp only [Option.some_bind, alloc]
              rw [hcl1, Option.some_bind, hadd, Option.some_bind]
              exact hcl2
            -- frame property
            · intro i hi hir
              rw [hframe2 i (by omega) hir]
              rw [nodeAt_set_ne _ (Ne.symm hir), nodeAt_set_ne _ (by omega)]
              rw [hframe1 i (by simp; omega) (by omega)]
              exact nodeAt_append_lt _ hi
            -- the parent gained the copies, in order
            · rw [hnode2]
              simp [List.append_assoc]
            -- the copies are fresh
            · intro k hk
              rcases List.mem_cons.mp hk with hk | hk
              · subst hk
                exact ⟨le_refl _, by omega⟩
              · have := hmem2 k hk
                rw [hlen3] at this
                exact ⟨by omega, this.2⟩
            -- the copies denote the source trees in any agreeing world
            · intro wf hagree
              have hrc4 : nodeAt w4 wc.length =
                  some ⟨d.name, some r, d.attributes, [] ++ kids1, d.inner, d.tail⟩ := by
                rw [hframe2 wc.length (by omega) (by omega)]
                rw [nodeAt_set_ne _ (by omega)]
                exact nodeAt_set_self _ (by omega)
              obtain ⟨a, b, ha, hb, hstrip⟩ := hagree wc.length (le_refl _) (by omega)
              rw [hrc4] at ha
              injection ha with ha
              subst ha
              obtain ⟨hbname, hbattrs, hbch, hbinner, hbtail⟩ := stripP_fields hstrip
              rw [treeOfList, hb, Option.some_bind]
              have hkids1 : treeOfList f wf kids1 = some ts1 := by
                apply hport1
                intro i hi1 hi2
                simp only [List.length_append, List.length_cons, List.length_nil] at hi1
                have hi4 : nodeAt w4 i = nodeAt w2 i := by
                  rw [hframe2 i (by omega) (by omega)]
                  rw [nodeAt_set_ne _ (by omega), nodeAt_set_ne _ (by omega)]
                obtain ⟨a2, b2, ha2, hb2, hstrip2⟩ := hagree i (by omega) (by omega)
                rw [hi4] at ha2
                exact ⟨a2, b2, ha2, hb2, hstrip2⟩
              have hkids2 : treeOfList f wf kids2 = some ts2 := by
                apply hport2
                intro i hi1 hi2
                rw [hlen3] at hi1
                exact hagree i (by omega) hi2
              have hbch2 : b.children = kids1 := by rw [← hbch]; simp
              have hbn : b.name = d.name := by rw [← hbname]
              have hba : b.attributes = d.attributes := by rw [← hbattrs]
              have hbi : b.inner = d.inner := by rw [← hbinner]
              have hbt : b.tail = d.tail := by rw [← hbtail]
              rw [hbch2, hkids1, Option.some_bind, hkids2, Option.map_some']
              rw [hbn, hba, hbi, hbt, h]

/-! Helper facts about attaching and copy construction. -/

theorem add_child_ptr_ok {w : World} {p c : Nat} {cd pd : NodeData}
    (hc : nodeAt w c = some cd) (hp : nodeAt w p = some pd) :
    ∃ w2, add_child_ptr w p c = some w2 ∧
      (∃ cd2, nodeAt w2 c = some cd2 ∧ cd2.parent = some p) ∧
      (∃ pd2, nodeAt w2 p = some pd2 ∧ pd2.children = pd.children ++ [c]) ∧
      (p ≠ c → nodeAt w2 c = some { cd with parent := some p }) ∧
      (∀ j, j ≠ c → j ≠ p → nodeAt w2 j = nodeAt w j) ∧
      w2.length = w.length := by
  have hclt : c < w.length := nodeAt_lt_length hc
  have hplt : p < w.length := nodeAt_lt_length hp
  by_cases hpc : p = c
  · subst hpc
    have hcd : pd = cd := by
      rw [hp] at hc
      injection hc
    subst hcd
    have hmid : nodeAt (setNode w p { pd with parent := some p }) p =
        some { pd with parent := some p } := nodeAt_set_self _ hplt
    refine ⟨setNode (setNode w p { pd with parent := some p }) p
        { pd with parent := some p, children := pd.children ++ [p] }, ?_, ?_, ?_, ?_, ?_, ?_⟩
    · rw [add_child_ptr, hc, Option.some_bind]
      show (nodeAt (setNode w p _) p).map _ = _
      rw [hmid, Option.map_some']
    · refine ⟨{ pd with parent := some p, children := pd.children ++ [p] }, ?_, rfl⟩
      exact nodeAt_set_self _ (by rw [length_setNode]; omega)
    · refine ⟨{ pd with parent := some p, children := pd.children ++ [p] }, ?_, rfl⟩
      exact nodeAt_set_self _ (by rw [length_setNode]; omega)
    · intro hne
      exact absurd rfl hne
    · intro j hj _
      rw [nodeAt_set_ne _ (Ne.symm hj), nodeAt_set_ne _ (Ne.symm hj)]
    · rw [length_setNode, length_setNode]
  · have hmid : nodeAt (setNode w c { cd with parent := some p }) p = some pd := by
      rw [nodeAt_set_ne _ (fun hh => hpc hh.symm)]
      exact hp
    refine ⟨setNode (setNode w c { cd with parent := some p }) p
        { pd with children := pd.children ++ [c] }, ?_, ?_, ?_, ?_, ?_, ?_⟩
    · rw [add_child_ptr, hc, Option.some_bind]
      show (nodeAt (setNode w c _) p).map _ = _
      rw [hmid, Option.map_some']
    · refine ⟨{ cd with parent := some p }, ?_, rfl⟩
      rw [nodeAt_set_ne _ hpc]
      exact nodeAt_set_self _ hclt
    · refine ⟨{ pd with children := pd.children ++ [c] }, ?_, rfl⟩
      exact nodeAt_set_self _ (by rw [length_setNode]; omega)
    · intro _
      rw [nodeAt_set_ne _ hpc]
      exact nodeAt_set_self _ hclt
    · intro j hjc hjp
      rw [nodeAt_set_ne _ (Ne.symm hjp), nodeAt_set_ne _ (Ne.symm hjc)]
    · rw [length_setNode, length_setNode]

theorem copy_ctor_ok : ∀ {f : Nat} {w : World} {src : Nat} {t : XmlTree},
    treeOf f w src = some t →
    ∃ w2 d kids,
      copy_ctor f w src = some (w2, w.length) ∧
      nodeAt w src = some d ∧
      (∀ i, i < w.length → nodeAt w2 i = nodeAt w i) ∧
      w.length < w2.length ∧
      nodeAt w2 w.length = some ⟨d.name, none, d.attributes, kids, d.inner, d.tail⟩ ∧
      treeOf f w2 w.length = some t ∧
      treeOf f w2 src = some t := by
  intro f w src t h
  cases f with
  | zero => cases h
  | succ f =>
    rw [treeOf] at h
    cases hd : nodeAt w src with
    | none => rw [hd, Option.none_bind] at h; cases h
    | some d =>
      rw [hd, Option.some_bind] at h
      cases hch : treeOfList f w d.children with
      | none => rw [hch, Option.map_none'] at h; cases h
      | some ts =>
        rw [hch, Option.map_some'] at h
        injection h with h
        obtain ⟨w2, kids, hcl, hlen, hframe, hnode, hmem, hport⟩ :=
          copy_list_ok f d.children w
            (w ++ [⟨d.name, none, d.attributes, [], d.inner, d.tail⟩]) w.length
            ⟨d.name, none, d.attributes, [], d.inner, d.tail⟩ ts hch (extW_alloc w _)
            (le_refl _) (nodeAt_append_self w _)
        have hsrclt : src < w.length := nodeAt_lt_length hd
        have hframe2 : ∀ i, i < w.length → nodeAt w2 i = nodeAt w i := by
          intro i hi
          rw [hframe i (by simp; omega) (by omega)]
          exact nodeAt_append_lt _ hi
        have hlen2 : w.length < w2.length := by
          simp only [List.length_append, List.length_cons, List.length_nil] at hlen
          omega
        have hnode2 : nodeAt w2 w.length =
            some ⟨d.name, none, d.attributes, [] ++ kids, d.inner, d.tail⟩ := by
          rw [hnode]
        have hkids : treeOfList f w2 kids = some ts := by
          apply hport
          exact contentAgree_self (le_refl _)
        have hextw2 : extW w w2 := fun i hi => hframe2 i hi
        refine ⟨w2, d, [] ++ kids, ?_, rfl, hframe2, hlen2, hnode2, ?_, ?_⟩
        · rw [copy_ctor, hd]
          simp only [Option.some_bind, alloc]
          rw [hcl, Option.map_some']
        · rw [treeOf, hnode2, Option.some_bind]
          show (treeOfList f w2 ([] ++ kids)).map _ = _
          rw [List.nil_append, hkids, Option.map_some']
          rw [h]
        · rw [treeOf, hframe2 src hsrclt, hd, Option.some_bind]
          rw [treeOfList_extW hextw2 hch, Option.map_some']
          rw [h]

/-! Facts about rfind. -/

theorem not_mem_of_rfind_none : ∀ {l : List Char} {c : Char}, rfind l c = none → c ∉ l := by
  intro l
  induction l with
  | nil => intro c _; simp
  | cons x xs ih =>
    intro c h
    rw [rfind] at h
    cases hr : rfind xs c with
    | some n => rw [hr] at h; cases h
    | none =>
      rw [hr] at h
      by_cases hx : x = c
      · rw [if_pos hx] at h; cases h
      · intro hm
        rcases List.mem_cons.mp hm with hm | hm
        · exact hx hm.symm
        · exact ih hr hm

theorem not_mem_drop_of_rfind : ∀ {l : List Char} {c : Char} {n : Nat},
    rfind l c = some n → c ∉ l.drop (n + 1) := by
  intro l
  induction l with
  | nil => intro c n h; cases h
  | cons x xs ih =>
    intro c n h
    rw [rfind] at h
    cases hr : rfind xs c with
    | some m =>
      rw [hr] at h
      injection h with h
      rw [← h]
      simpa using ih hr
    | none =>
      rw [hr] at h
      by_cases hx : x = c
      · rw [if_pos hx] at h
        injection h with h
        rw [← h]
        simpa using not_mem_of_rfind_none hr
      · rw [if_neg hx] at h; cases h

/-- C2: the single-string constructor splits the name at the last occurrence
of the internal separator `'\x01'`: the suffix becomes the node name (which
then contains no separator), the prefix becomes the value of the `xmlns`
attribute; a separator-free name is stored unchanged and no `xmlns` attribute
is created. -/
theorem c2_ctor_namespace_split : ∀ (nm : List Char) (p : Option Nat),
    (rfind nm sepChar = none →
      (xmlNode_mk1 nm p).name = nm ∧
      map_find (xmlNode_mk1 nm p).attributes xmlnsKey = none) ∧
    (∀ n, rfind nm sepChar = some n →
      (xmlNode_mk1 nm p).name = nm.drop (n + 1) ∧
      sepChar ∉ (xmlNode_mk1 nm p).name ∧
      map_find (xmlNode_mk1 nm p).attributes xmlnsKey = some (nm.take n)) := by
  intro nm p
  constructor
  · intro h
    rw [xmlNode_mk1, h]
    exact ⟨rfl, rfl⟩
  · intro n h
    rw [xmlNode_mk1, h]
    refine ⟨rfl, ?_, ?_⟩
    · exact not_mem_drop_of_rfind h
    · show map_find [(xmlnsKey, nm.take n)] xmlnsKey = some (nm.take n)
      rw [map_find, if_pos rfl]

/-- C2 witness: constructing from `"urn:example\x01item"` yields name `item`
and `xmlns = "urn:example"`. -/
theorem c2_ctor_namespace_split_witness :
    rfind exName sepChar = some 11 ∧
    (xmlNode_mk1 exName none).name = ['i', 't', 'e', 'm'] ∧
    sepChar ∉ (xmlNode_mk1 exName none).name ∧
    map_find (xmlNode_mk1 exName none).attributes xmlnsKey =
      some ['u', 'r', 'n', ':', 'e', 'x', 'a', 'm', 'p', 'l', 'e'] := by
  have h := (c2_ctor_namespace_split exName none).2 11 (by decide)
  refine ⟨by decide, ?_, h.2.1, ?_⟩
  · rw [h.1]; decide
  · rw [h.2.2]; decide

/-- C7: `xml_escape` processes the input byte by byte, replaces exactly the
five reserved characters by their entities, passes every other character
through unchanged, is the identity (hence idempotent) on strings free of the
five, and the replacement is injective on the five reserved characters. -/
theorem c7_escape_exact :
    (escape_char '&' = ['&', 'a', 'm', 'p', ';'] ∧
     escape_char '<' = ['&', 'l', 't', ';'] ∧
     escape_char '>' = ['&', 'g', 't', ';'] ∧
     escape_char '"' = ['&', 'q', 'u', 'o', 't', ';'] ∧
     escape_char '\x27' = ['&', 'a', 'p', 'o', 's', ';']) ∧
    (∀ c : Char, c ∉ reservedChars → escape_char c = [c]) ∧
    (∀ (c : Char) (s : List Char), xml_escape (c :: s) = escape_char c ++ xml_escape s) ∧
    (∀ s : List Char, (∀ c ∈ s, c ∉ reservedChars) → xml_escape s = s) ∧
    (∀ s : List Char, (∀ c ∈ s, c ∉ reservedChars) →
      xml_escape (xml_escape s) = xml_escape s) ∧
    (∀ c1 c2 : Char, c1 ∈ reservedChars → c2 ∈ reservedChars →
      escape_char c1 = escape_char c2 → c1 = c2) := by
  refine ⟨⟨by decide, by decide, by decide, by decide, by decide⟩,
    fun c h => escape_char_eq_self h, fun c s => rfl, fun s h => xml_escape_id h, ?_, ?_⟩
  · intro s h
    rw [xml_escape_id h, xml_escape_id h]
  · intro c1 c2 h1 h2 heq
    simp only [reservedChars, List.mem_cons, List.not_mem_nil, or_false] at h1 h2
    rcases h1 with rfl | rfl | rfl | rfl | rfl <;>
      rcases h2 with rfl | rfl | rfl | rfl | rfl <;> revert heq <;> decide

/-- C7 witness: the theorem instantiated at concrete characters and strings. -/
theorem c7_escape_exact_witness :
    (('x' ∉ reservedChars) ∧ escape_char 'x' = ['x']) ∧
    xml_escape ['a', 'b'] = ['a', 'b'] ∧
    xml_escape (xml_escape ['a', 'b']) = xml_escape ['a', 'b'] ∧
    ('&' ∈ reservedChars ∧ escape_char '&' = escape_char '&' ∧ ('&' : Char) = '&') := by
  refine ⟨⟨by decide, c7_escape_exact.2.1 'x' (by decide)⟩,
    c7_escape_exact.2.2.2.1 ['a', 'b'] (by decide),
    c7_escape_exact.2.2.2.2.1 ['a', 'b'] (by decide),
    by decide, rfl,
    c7_escape_exact.2.2.2.2.2 '&' '&' (by decide) (by decide) rfl⟩

/-- C8: append_inner twice stores the concatenation, set_inner replaces, and
on an initially empty inner text two appends equal one set of the
concatenation; the same holds for the tail text. -/
theorem c8_text_append : ∀ (d : NodeData) (a b : List Char),
    (add_to_inner (add_to_inner d a) b).inner = d.inner ++ a ++ b ∧
    (set_inner d (a ++ b)).inner = a ++ b ∧
    (d.inner = [] →
      (add_to_inner (add_to_inner d a) b).inner = (set_inner d (a ++ b)).inner) ∧
    (add_to_tail (add_to_tail d a) b).tail = d.tail ++ a ++ b ∧
    (set_tail d (a ++ b)).tail = a ++ b ∧
    (d.tail = [] →
      (add_to_tail (add_to_tail d a) b).tail = (set_tail d (a ++ b)).tail) := by
  intro d a b
  refine ⟨rfl, rfl, ?_, rfl, rfl, ?_⟩
  · intro h
    simp [add_to_inner, set_inner, h, List.append_assoc]
  · intro h
    simp [add_to_tail, set_tail, h, List.append_assoc]

/-- C8 witness: `append_inner "ab"; append_inner "cd"` stores the same inner
text as `set_inner "abcd"` on a node with empty initial inner text. -/
theorem c8_text_append_witness :
    (xmlSubNode_mk ['a']).inner = [] ∧
    (add_to_inner (add_to_inner (xmlSubNode_mk ['a']) ['a', 'b']) ['c', 'd']).inner =
      (set_inner (xmlSubNode_mk ['a']) (['a', 'b'] ++ ['c', 'd'])).inner := by
  refine ⟨by decide, ?_⟩
  exact (c8_text_append (xmlSubNode_mk ['a']) ['a', 'b'] ['c', 'd']).2.2.1 (by decide)

/-- C9: on a node whose attribute map satisfies the map invariant, `del_tag`
returns true exactly when the key was present, is a complete no-op when the
key is absent, and when present removes exactly that key, leaving every other
key's presence and value unchanged. -/
theorem c9_del_tag : ∀ (d : NodeData) (k : List Char), sortedKeys d.attributes →
    ((del_tag d k).1 = true ↔ map_find d.attributes k ≠ none) ∧
    (map_find d.attributes k = none → (del_tag d k).2 = d) ∧
    map_find (del_tag d k).2.attributes k = none ∧
    (∀ k2, k2 ≠ k → map_find (del_tag d k).2.attributes k2 = map_find d.attributes k2) := by
  intro d k hs
  refine ⟨?_, ?_, ?_, ?_⟩
  · show (decide ((map_erase k d.attributes).1 ≠ 0)) = true ↔ _
    rw [decide_eq_true_iff]
    constructor
    · intro h hn
      exact h ((map_erase_count_zero).mpr hn)
    · intro h hn
      exact h ((map_erase_count_zero).mp hn)
  · intro h
    show { d with attributes := (map_erase k d.attributes).2 } = d
    rw [map_erase_not_found h]
  · exact map_erase_find_self hs
  · intro k2 hk2
    exact map_erase_find_ne hk2

/-- C9 witness: the theorem instantiated on a two-attribute node, with a
present key and an absent key. -/
theorem c9_del_tag_witness :
    sortedKeys [(['a'], ['1']), (['b'], ['2'])] ∧
    (del_tag ⟨['n'], none, [(['a'], ['1']), (['b'], ['2'])], [], [], []⟩ ['a']).1 = true ∧
    map_find (del_tag ⟨['n'], none, [(['a'], ['1']), (['b'], ['2'])], [], [], []⟩
      ['a']).2.attributes ['a'] = none ∧
    map_find (del_tag ⟨['n'], none, [(['a'], ['1']), (['b'], ['2'])], [], [], []⟩
      ['a']).2.attributes ['b'] = some ['2'] ∧
    (del_tag ⟨['n'], none, [(['a'], ['1']), (['b'], ['2'])], [], [], []⟩ ['c']).1 = false ∧
    (del_tag ⟨['n'], none, [(['a'], ['1']), (['b'], ['2'])], [], [], []⟩ ['c']).2 =
      ⟨['n'], none, [(['a'], ['1']), (['b'], ['2'])], [], [], []⟩ := by
  have h1 := c9_del_tag ⟨['n'], none, [(['a'], ['1']), (['b'], ['2'])], [], [], []⟩ ['a']
    (by decide)
  have h2 := c9_del_tag ⟨['n'], none, [(['a'], ['1']), (['b'], ['2'])], [], [], []⟩ ['c']
    (by decide)
  refine ⟨by decide, h1.1.mpr (by decide), h1.2.2.1, ?_, ?_, h2.2.1 (by decide)⟩
  · rw [h1.2.2.2 ['b'] (by decide)]
    decide
  · have hne : ¬ ((del_tag ⟨['n'], none, [(['a'], ['1']), (['b'], ['2'])], [], [], []⟩
        ['c']).1 = true) :=
      fun hh => (h2.1.mp hh) (by decide)
    simpa using hne

/-- C1 counterexample: the claim fails as stated.  A childless node with
empty inner text but tail text `x` serializes to `<a/>x`, which does not end
in `/>`; and a childless node carrying an attribute whose (unsanitized) key is
the string `</a>` serializes to an output that does contain the closing tag
`</a>`. -/
theorem c1_counterexample :
    (nodeAt exWorldTail 0 =
        some ⟨['a'], none, [], [], [], ['x']⟩ ∧
      to_string 2 exWorldTail 0 = some ['<', 'a', '/', '>', 'x'] ∧
      ¬ (['/', '>'] <:+ ['<', 'a', '/', '>', 'x'])) ∧
    (nodeAt exWorldKey 0 =
        some ⟨['a'], none, [(['<', '/', 'a', '>'], [])], [], [], []⟩ ∧
      to_string 2 exWorldKey 0 =
        some ['<', 'a', ' ', '<', '/', 'a', '>', '=', '\x27', '\x27', '/', '>'] ∧
      (('<' :: '/' :: (['a'] ++ ['>'])) <:+:
        ['<', 'a', ' ', '<', '/', 'a', '>', '=', '\x27', '\x27', '/', '>'])) := by
  refine ⟨⟨by decide, by decide, by decide⟩, ⟨by decide, by decide, by decide⟩⟩

/-- C1 (amended): for every node with no children and empty inner text,
`to_string` emits the self-closing element `<name attrs/>` followed by the
sanitized tail; when the tail is empty the whole output ends in `/>`; and
provided the name is nonempty, does not start with `/`, and neither the name
nor any attribute key contains `<`, no closing tag `</name>` occurs anywhere
in the output. -/
theorem c1_self_closing : ∀ (f : Nat) (w : World) (i : Nat) (d : NodeData) (s : List Char),
    nodeAt w i = some d → d.children = [] → d.inner = [] → to_string f w i = some s →
    s = '<' :: (d.name ++ attrs_string d.attributes ++ ['/', '>'] ++ sanitize d.tail) ∧
    (d.tail = [] → ['/', '>'] <:+ s) ∧
    (d.name ≠ [] → d.name.head? ≠ some '/' → '<' ∉ d.name →
      (∀ kv ∈ d.attributes, '<' ∉ kv.1) →
      ¬ (('<' :: '/' :: (d.name ++ ['>'])) <:+: s)) := by
  intro f w i d s hd hc hi hs
  have hleaf := to_string_leaf hd hc hi hs
  refine ⟨hleaf, ?_, ?_⟩
  · intro htail
    rw [hleaf, htail]
    show ['/', '>'] <:+ '<' :: (d.name ++ attrs_string d.attributes ++ ['/', '>'] ++ sanitize [])
    refine ⟨'<' :: (d.name ++ attrs_string d.attributes), ?_⟩
    show '<' :: (d.name ++ attrs_string d.attributes) ++ ['/', '>'] = _
    simp [sanitize, remove_invalid_xml_chars, xml_escape]
  · intro hne hhd hnm hkeys
    rw [hleaf]
    have hbody : '<' ∉ d.name ++ attrs_string d.attributes ++ ['/', '>'] ++ sanitize d.tail := by
      intro hm
      simp only [List.mem_append] at hm
      rcases hm with ((hm | hm) | hm) | hm
      · exact hnm hm
      · exact lt_not_mem_attrs_string hkeys hm
      · simp at hm
      · exact lt_not_mem_sanitize _ hm
    have hheadb :
        (d.name ++ attrs_string d.attributes ++ ['/', '>'] ++ sanitize d.tail).head? ≠
          some '/' := by
      cases hn : d.name with
      | nil => exact absurd hn hne
      | cons c0 cs =>
        rw [hn] at hhd
        simp only [List.cons_append, List.head?_cons]
        intro hcon
        injection hcon with hcon
        rw [List.head?_cons, hcon] at hhd
        exact hhd rfl
    exact no_close_of_no_lt hbody hheadb _

/-- C1 witness: the amended theorem applied to a concrete leaf node named
`a` carrying one attribute, with empty tail. -/
theorem c1_self_closing_witness :
    nodeAt exWorldLeaf 0 = some ⟨['a'], none, [(['k'], ['v'])], [], [], []⟩ ∧
    to_string 2 exWorldLeaf 0 =
      some ['<', 'a', ' ', 'k', '=', '\x27', 'v', '\x27', '/', '>'] ∧
    (['<', 'a', ' ', 'k', '=', '\x27', 'v', '\x27', '/', '>'] =
        '<' :: (['a'] ++ attrs_string [(['k'], ['v'])] ++ ['/', '>'] ++ sanitize []) ∧
      (([] : List Char) = [] →
        ['/', '>'] <:+ ['<', 'a', ' ', 'k', '=', '\x27', 'v', '\x27', '/', '>']) ∧
      ((['a'] : List Char) ≠ [] → (['a'] : List Char).head? ≠ some '/' →
        '<' ∉ (['a'] : List Char) →
        (∀ kv ∈ [(['k'], ['v'])], '<' ∉ kv.1) →
        ¬ (('<' :: '/' :: ((['a'] : List Char) ++ ['>'])) <:+:
          ['<', 'a', ' ', 'k', '=', '\x27', 'v', '\x27', '/', '>']))) := by
  refine ⟨by decide, by decide, ?_⟩
  exact c1_self_closing 2 exWorldLeaf 0 ⟨['a'], none, [(['k'], ['v'])], [], [], []⟩
    ['<', 'a', ' ', 'k', '=', '\x27', 'v', '\x27', '/', '>']
    (by decide) (by decide) (by decide) (by decide)

/-- C10: the two-string constructor always stores an `xmlns` attribute, even
for the empty namespace, and a node so constructed with empty namespace
serializes with a literal empty-valued `xmlns` attribute; by contrast the single-string
constructor applied to a separator-free name creates no `xmlns` attribute and
serializes without one. -/
theorem c10_explicit_xmlns : ∀ (xs nm : List Char) (p : Option Nat),
    (xmlNode_mk2 xs nm p).attributes = [(xmlnsKey, xs)] ∧
    map_find (xmlNode_mk2 xs nm p).attributes xmlnsKey = some xs ∧
    to_string 2 [xmlNode_mk2 [] nm none] 0 =
      some ('<' :: (nm ++ [' ', 'x', 'm', 'l', 'n', 's', '=', '\x27', '\x27', '/', '>'])) ∧
    (rfind nm sepChar = none →
      (xmlNode_mk1 nm p).attributes = [] ∧
      to_string 2 [xmlNode_mk1 nm none] 0 = some ('<' :: (nm ++ ['/', '>']))) := by
  intro xs nm p
  refine ⟨rfl, ?_, ?_, ?_⟩
  · show map_find [(xmlnsKey, xs)] xmlnsKey = some xs
    rw [map_find, if_pos rfl]
  · have hts : to_string 2 [xmlNode_mk2 [] nm none] 0 =
        some (to_string_node (xmlNode_mk2 [] nm none) []) := rfl
    rw [hts, to_string_node]
    show some ('<' :: (nm ++ attrs_string [(xmlnsKey, [])] ++ ['/', '>'] ++ sanitize [])) = _
    simp [attrs_string, render_attr, xmlnsKey, sanitize, remove_invalid_xml_chars, xml_escape]
  · intro h
    have ha : (xmlNode_mk1 nm p).attributes = [] := by
      rw [xmlNode_mk1, h]
    have ha2 : (xmlNode_mk1 nm none).attributes = [] := by
      rw [xmlNode_mk1, h]
    have hch : (xmlNode_mk1 nm none).children = [] := by
      rw [xmlNode_mk1, h]
    have hin : (xmlNode_mk1 nm none).inner = [] := by
      rw [xmlNode_mk1, h]
    have htl : (xmlNode_mk1 nm none).tail = [] := by
      rw [xmlNode_mk1, h]
    have hnm : (xmlNode_mk1 nm none).name = nm := by
      rw [xmlNode_mk1, h]
    refine ⟨ha, ?_⟩
    have hts : to_string 2 [xmlNode_mk1 nm none] 0 =
        some (to_string_node (xmlNode_mk1 nm none) []) := by
      rw [to_string]
      have hn0 : nodeAt [xmlNode_mk1 nm none] 0 = some (xmlNode_mk1 nm none) := rfl
      rw [hn0, Option.some_bind, hch]
      rfl
    rw [hts, to_string_node, hnm, ha2, hch, hin, htl]
    simp [attrs_string, sanitize, remove_invalid_xml_chars, xml_escape]

/-- C10 witness: the theorem applied at a concrete namespace and name. -/
theorem c10_explicit_xmlns_witness :
    (xmlNode_mk2 [] ['a'] none).attributes = [(xmlnsKey, [])] ∧
    map_find (xmlNode_mk2 [] ['a'] none).attributes xmlnsKey = some [] ∧
    to_string 2 [xmlNode_mk2 [] ['a'] none] 0 =
      some ('<' :: (['a'] ++ [' ', 'x', 'm', 'l', 'n', 's', '=', '\x27', '\x27', '/', '>'])) ∧
    rfind ['a'] sepChar = none ∧
    (xmlNode_mk1 ['a'] none).attributes = [] ∧
    to_string 2 [xmlNode_mk1 ['a'] none] 0 = some ('<' :: (['a'] ++ ['/', '>'])) := by
  have h := c10_explicit_xmlns [] ['a'] none
  have h4 := h.2.2.2 (by decide)
  exact ⟨h.1, h.2.1, h.2.2.1, by decide, h4.1, h4.2⟩

/-- C6: the serialized output renders the attributes immediately after the
name in the iteration order of the map; on a map satisfying the sortedness
invariant the smaller of any two present keys is rendered to the left of the
larger; and `set_attribute` calls with distinct keys commute (the stored map,
hence the rendering, is independent of insertion order), the invariant being
preserved by every insertion. -/
theorem c6_attrs_sorted_render :
    (∀ (f : Nat) (w : World) (i : Nat) (d : NodeData) (s : List Char),
      nodeAt w i = some d → to_string f w i = some s →
      ∃ rest, s = '<' :: (d.name ++ attrs_string d.attributes ++ rest)) ∧
    (∀ (attrs : List (List Char × List Char)) (k1 v1 k2 v2 : List Char),
      sortedKeys attrs → (k1, v1) ∈ attrs → (k2, v2) ∈ attrs → strLt k1 k2 = true →
      ∃ s1 s2 s3, attrs_string attrs =
        s1 ++ (render_attr (k1, v1) ++ (s2 ++ (render_attr (k2, v2) ++ s3)))) ∧
    (∀ (d : NodeData) (a va b vb : List Char), sortedKeys d.attributes → a ≠ b →
      set_attribute (set_attribute d a va) b vb =
        set_attribute (set_attribute d b vb) a va) ∧
    (∀ (d : NodeData) (k v : List Char), sortedKeys d.attributes →
      sortedKeys (set_attribute d k v).attributes) := by
  refine ⟨?_, ?_, ?_, ?_⟩
  · intro f w i d s hd hs
    obtain ⟨f2, d2, cs, hf, hd2, hcs, hsn⟩ := to_string_some_elim hs
    rw [hd] at hd2
    injection hd2 with hd2
    subst hd2
    exact ⟨_, by rw [hsn, to_string_node, List.append_assoc]⟩
  · intro attrs k1 v1 k2 v2 hs h1 h2 hlt
    exact attrs_string_order hs h1 h2 hlt
  · intro d a va b vb hs hab
    have hs1 : sortedKeys (map_insert b vb (map_insert a va d.attributes)) :=
      sorted_map_insert (sorted_map_insert hs)
    have hs2 : sortedKeys (map_insert a va (map_insert b vb d.attributes)) :=
      sorted_map_insert (sorted_map_insert hs)
    have hm : map_insert b vb (map_insert a va d.attributes) =
        map_insert a va (map_insert b vb d.attributes) := by
      apply map_ext hs1 hs2
      intro k
      rw [find_map_insert, find_map_insert, find_map_insert, find_map_insert]
      by_cases hka : k = a
      · by_cases hkb : k = b
        · exact absurd (hka.symm.trans hkb) hab
        · simp [hka, hkb, hab]
      · by_cases hkb : k = b <;> simp [hka, hkb, hab, Ne.symm hab]
    show { d with attributes := map_insert b vb (map_insert a va d.attributes) } =
      { d with attributes := map_insert a va (map_insert b vb d.attributes) }
    rw [hm]
  · intro d k v hs
    exact sorted_map_insert hs

/-- C6 witness: the theorem applied on concrete nodes; in particular
inserting key `b` and then key `a` yields the same stored map as inserting
`a` and then `b`. -/
theorem c6_attrs_sorted_render_witness :
    (∃ rest, ['<', 'a', ' ', 'k', '=', '\x27', 'v', '\x27', '/', '>'] =
      '<' :: (['a'] ++ attrs_string [(['k'], ['v'])] ++ rest)) ∧
    (∃ s1 s2 s3, attrs_string [(['a'], ['1']), (['b'], ['2'])] =
      s1 ++ (render_attr (['a'], ['1']) ++ (s2 ++ (render_attr (['b'], ['2']) ++ s3)))) ∧
    set_attribute (set_attribute ⟨['n'], none, [], [], [], []⟩ ['b'] ['2']) ['a'] ['1'] =
      set_attribute (set_attribute ⟨['n'], none, [], [], [], []⟩ ['a'] ['1']) ['b'] ['2'] ∧
    sortedKeys (set_attribute ⟨['n'], none, [], [], [], []⟩ ['a'] ['1']).attributes := by
  refine ⟨?_, ?_, ?_, ?_⟩
  · exact c6_attrs_sorted_render.1 2 exWorldLeaf 0 ⟨['a'], none, [(['k'], ['v'])], [], [], []⟩
      ['<', 'a', ' ', 'k', '=', '\x27', 'v', '\x27', '/', '>'] (by decide) (by decide)
  · exact c6_attrs_sorted_render.2.1 [(['a'], ['1']), (['b'], ['2'])] ['a'] ['1'] ['b'] ['2']
      (by decide) (by decide) (by decide) (by decide)
  · exact (c6_attrs_sorted_render.2.2.1 ⟨['n'], none, [], [], [], []⟩ ['a'] ['1'] ['b'] ['2']
      (by decide) (by decide)).symm
  · exact c6_attrs_sorted_render.2.2.2 ⟨['n'], none, [], [], [], []⟩ ['a'] ['1'] (by decide)

/-- C3: all three intake forms of `add_child` — owned pointer, moved value,
copied value — attach the child to the parent: afterwards the attached
child's parent back-reference is the parent, the attached child is the last
element of the parent's child list (attach appends), and the returned pointer
designates that attached child. -/
theorem c3_add_child_attaches :
    (∀ (w : World) (p c : Nat) (cd pd : NodeData),
      nodeAt w c = some cd → nodeAt w p = some pd →
      ∃ w2, add_child_ptr w p c = some w2 ∧
        (∃ cd2, nodeAt w2 c = some cd2 ∧ cd2.parent = some p) ∧
        (∃ pd2, nodeAt w2 p = some pd2 ∧ pd2.children = pd.children ++ [c] ∧
          pd2.children.getLast? = some c)) ∧
    (∀ (w : World) (p : Nat) (d pd : NodeData), nodeAt w p = some pd →
      ∃ w2 c, add_child_move w p d = some (w2, c) ∧
        nodeAt w2 c = some { d with parent := some p } ∧
        (∃ pd2, nodeAt w2 p = some pd2 ∧ pd2.children = pd.children ++ [c] ∧
          pd2.children.getLast? = some c)) ∧
    (∀ (f : Nat) (w : World) (p src : Nat) (t : XmlTree) (pd : NodeData),
      treeOf f w src = some t → nodeAt w p = some pd →
      ∃ w2 c, add_child_copy f w p src = some (w2, c) ∧
        (∃ cd2, nodeAt w2 c = some cd2 ∧ cd2.parent = some p) ∧
        (∃ pd2, nodeAt w2 p = some pd2 ∧ pd2.children = pd.children ++ [c] ∧
          pd2.children.getLast? = some c)) := by
  refine ⟨?_, ?_, ?_⟩
  · intro w p c cd pd hc hp
    obtain ⟨w2, hadd, hcd2, ⟨pd2, hpd2, hch⟩, _, _, _⟩ := add_child_ptr_ok hc hp
    exact ⟨w2, hadd, hcd2, ⟨pd2, hpd2, hch, by rw [hch, List.getLast?_concat]⟩⟩
  · intro w p d pd hp
    have hplt : p < w.length := nodeAt_lt_length hp
    have hc : nodeAt (w ++ [d]) w.length = some d := nodeAt_append_self w d
    have hp2 : nodeAt (w ++ [d]) p = some pd := by
      rw [nodeAt_append_lt _ hplt]; exact hp
    obtain ⟨w2, hadd, _, ⟨pd2, hpd2, hch⟩, hfresh, _, _⟩ := add_child_ptr_ok hc hp2
    refine ⟨w2, w.length, ?_, ?_, ⟨pd2, hpd2, hch, by rw [hch, List.getLast?_concat]⟩⟩
    · rw [add_child_move]
      show (add_child_ptr (w ++ [d]) p w.length).map _ = _
      rw [hadd, Option.map_some']
      rfl
    · exact hfresh (by omega)
  · intro f w p src t pd ht hp
    have hplt : p < w.length := nodeAt_lt_length hp
    obtain ⟨w1, dsrc, kids, hcc, hdsrc, hframe, hlen, hnode1, _, _⟩ := copy_ctor_ok ht
    have hp1 : nodeAt w1 p = some pd := by
      rw [hframe p hplt]; exact hp
    obtain ⟨w2, hadd, hcd2, ⟨pd2, hpd2, hch⟩, _, _, _⟩ := add_child_ptr_ok hnode1 hp1
    refine ⟨w2, w.length, ?_, hcd2, ⟨pd2, hpd2, hch, by rw [hch, List.getLast?_concat]⟩⟩
    rw [add_child_copy, hcc, Option.some_bind]
    show (add_child_ptr w1 p w.length).map _ = _
    rw [hadd, Option.map_some']

/-- C3 witness: the three forms applied on a concrete two-node world. -/
theorem c3_add_child_attaches_witness :
    (∃ w2, add_child_ptr [⟨['p'], none, [], [], [], []⟩, ⟨['c'], none, [], [], [], []⟩] 0 1 =
        some w2 ∧
      (∃ cd2, nodeAt w2 1 = some cd2 ∧ cd2.parent = some 0) ∧
      (∃ pd2, nodeAt w2 0 = some pd2 ∧ pd2.children = [] ++ [1] ∧
        pd2.children.getLast? = some 1)) ∧
    (∃ w2 c, add_child_move [⟨['p'], none, [], [], [], []⟩] 0 ⟨['c'], none, [], [], [], []⟩ =
        some (w2, c) ∧
      nodeAt w2 c = some { (⟨['c'], none, [], [], [], []⟩ : NodeData) with parent := some 0 } ∧
      (∃ pd2, nodeAt w2 0 = some pd2 ∧ pd2.children = [] ++ [c] ∧
        pd2.children.getLast? = some c)) ∧
    (∃ w2 c, add_child_copy 2 [⟨['p'], none, [], [], [], []⟩, ⟨['c'], none, [], [], [], []⟩]
        0 1 = some (w2, c) ∧
      (∃ cd2, nodeAt w2 c = some cd2 ∧ cd2.parent = some 0) ∧
      (∃ pd2, nodeAt w2 0 = some pd2 ∧ pd2.children = [] ++ [c] ∧
        pd2.children.getLast? = some c)) := by
  refine ⟨?_, ?_, ?_⟩
  · exact c3_add_child_attaches.1 [⟨['p'], none, [], [], [], []⟩, ⟨['c'], none, [], [], [], []⟩]
      0 1 ⟨['c'], none, [], [], [], []⟩ ⟨['p'], none, [], [], [], []⟩ (by decide) (by decide)
  · exact c3_add_child_attaches.2.1 [⟨['p'], none, [], [], [], []⟩] 0
      ⟨['c'], none, [], [], [], []⟩ ⟨['p'], none, [], [], [], []⟩ (by decide)
  · exact c3_add_child_attaches.2.2 2
      [⟨['p'], none, [], [], [], []⟩, ⟨['c'], none, [], [], [], []⟩] 0 1
      (XmlTree.node ['c'] [] [] [] []) ⟨['p'], none, [], [], [], []⟩ rfl (by decide)

/-- C4: the scoped builder's scope-exit action moves the built node into
`parent.add_child`: the parent gains a node holding exactly the built node's
name, attributes, children, inner and tail, with its parent back-reference
set to the parent, as the new last element of the parent's child list. -/
theorem c4_subnode_scope_exit : ∀ (w : World) (p : Nat) (d pd : NodeData),
    nodeAt w p = some pd →
    ∃ w2 c, xmlSubNode_dtor w p d = some (w2, c) ∧
      c = w.length ∧
      nodeAt w2 c = some { d with parent := some p } ∧
      (∃ pd2, nodeAt w2 p = some pd2 ∧ pd2.children = pd.children ++ [c] ∧
        pd2.children.getLast? = some c) := by
  intro w p d pd hp
  have hplt : p < w.length := nodeAt_lt_length hp
  have hc : nodeAt (w ++ [d]) w.length = some d := nodeAt_append_self w d
  have hp2 : nodeAt (w ++ [d]) p = some pd := by
    rw [nodeAt_append_lt _ hplt]; exact hp
  obtain ⟨w2, hadd, _, ⟨pd2, hpd2, hch⟩, hfresh, _, _⟩ := add_child_ptr_ok hc hp2
  refine ⟨w2, w.length, ?_, rfl, ?_, ⟨pd2, hpd2, hch, by rw [hch, List.getLast?_concat]⟩⟩
  · rw [xmlSubNode_dtor, add_child_move]
    show (add_child_ptr (w ++ [d]) p w.length).map _ = _
    rw [hadd, Option.map_some']
    rfl
  · exact hfresh (by omega)

/-- C4 witness: the destructor of a builder constructed with name `b`,
run against a concrete one-node parent world. -/
theorem c4_subnode_scope_exit_witness :
    nodeAt [⟨['p'], none, [], [], [], []⟩] 0 = some ⟨['p'], none, [], [], [], []⟩ ∧
    (∃ w2 c, xmlSubNode_dtor [⟨['p'], none, [], [], [], []⟩] 0 (xmlSubNode_mk ['b']) =
        some (w2, c) ∧
      c = 1 ∧
      nodeAt w2 c = some { xmlSubNode_mk ['b'] with parent := some 0 } ∧
      (∃ pd2, nodeAt w2 0 = some pd2 ∧ pd2.children = [] ++ [c] ∧
        pd2.children.getLast? = some c)) := by
  exact ⟨by decide, c4_subnode_scope_exit [⟨['p'], none, [], [], [], []⟩] 0
    (xmlSubNode_mk ['b']) ⟨['p'], none, [], [], [], []⟩ (by decide)⟩

/-- C5: copy construction deep-copies the whole subtree — the copy carries
the same name, attributes, inner and tail, its parent is reset to none even
if the original was attached, and the pure tree below the copy equals the
pure tree below the original — while every pre-existing node is untouched;
afterwards mutating the copy's attributes leaves the original unchanged and
vice versa. -/
theorem c5_copy_deep_independent : ∀ (f : Nat) (w : World) (src : Nat) (t : XmlTree),
    treeOf f w src = some t →
    ∃ w2 d kids,
      copy_ctor f w src = some (w2, w.length) ∧
      nodeAt w src = some d ∧
      nodeAt w2 w.length = some ⟨d.name, none, d.attributes, kids, d.inner, d.tail⟩ ∧
      treeOf f w2 w.length = some t ∧
      treeOf f w2 src = some t ∧
      (∀ i, i < w.length → nodeAt w2 i = nodeAt w i) ∧
      (∀ k v, nodeAt (set_attribute_w w2 w.length k v) src = nodeAt w2 src) ∧
      (∀ k v, nodeAt (set_attribute_w w2 src k v) w.length = nodeAt w2 w.length) := by
  intro f w src t ht
  obtain ⟨w2, d, kids, hcc, hd, hframe, hlen, hnode, htcopy, htsrc⟩ := copy_ctor_ok ht
  have hsrclt : src < w.length := nodeAt_lt_length hd
  have hsrc2 : nodeAt w2 src = some d := by
    rw [hframe src hsrclt]; exact hd
  refine ⟨w2, d, kids, hcc, hd, hnode, htcopy, htsrc, hframe, ?_, ?_⟩
  · intro k v
    rw [set_attribute_w, hnode]
    show nodeAt (setNode w2 w.length _) src = nodeAt w2 src
    exact nodeAt_set_ne _ (by omega)
  · intro k v
    rw [set_attribute_w, hsrc2]
    show nodeAt (setNode w2 src _) w.length = nodeAt w2 w.length
    exact nodeAt_set_ne _ (by omega)

/-- C5 witness: the theorem applied to the concrete two-node tree of
`exWorldTree` (node 0 named `a` owning node 1 named `b`). -/
theorem c5_copy_deep_independent_witness :
    treeOf 3 exWorldTree 0 =
      some (XmlTree.node ['a'] [(['k'], ['v'])] [XmlTree.node ['b'] [] [] [] []]
        ['i'] ['t']) ∧
    (∃ w2 d kids,
      copy_ctor 3 exWorldTree 0 = some (w2, 2) ∧
      nodeAt exWorldTree 0 = some d ∧
      nodeAt w2 2 = some ⟨d.name, none, d.attributes, kids, d.inner, d.tail⟩ ∧
      treeOf 3 w2 2 =
        some (XmlTree.node ['a'] [(['k'], ['v'])] [XmlTree.node ['b'] [] [] [] []]
          ['i'] ['t']) ∧
      treeOf 3 w2 0 =
        some (XmlTree.node ['a'] [(['k'], ['v'])] [XmlTree.node ['b'] [] [] [] []]
          ['i'] ['t']) ∧
      (∀ i, i < 2 → nodeAt w2 i = nodeAt exWorldTree i) ∧
      (∀ k v, nodeAt (set_attribute_w w2 2 k v) 0 = nodeAt w2 0) ∧
      (∀ k v, nodeAt (set_attribute_w w2 0 k v) 2 = nodeAt w2 2)) :=
  ⟨rfl, c5_copy_deep_independent 3 exWorldTree 0
    (XmlTree.node ['a'] [(['k'], ['v'])] [XmlTree.node ['b'] [] [] [] []] ['i'] ['t']) rfl⟩

end Biboumi
